import Mathlib

/-!
Verification development for the block-storage / exchange-message layer of
rubiojr/go-ipfs.  Pure shallow embedding of the Go sources:

* `blocks/blockstore/blockstore.go` — blockstore `Put` and the `AllKeysChan`
  enumeration loop;
* the bitswap `message` package (its implementation file is absent from the
  snapshot; only its tests are present, so the message operations are
  modelled from the spec, marked `Modelled from the spec:` below);
* `repo/fsrepo` (`open`, `checkInitialized`, `SetConfigKey`, `GetConfigKey`).

Go byte strings are embedded as `List Nat`, Go errors as `Option`/custom
error inductives, and the mutable message/store state as explicit
state-passing values.
-/

namespace GoIpfs

/-- Go byte strings (`[]byte`, `u.Key`) are embedded as lists of bytes. -/
abbrev Bytes := List Nat

/-- Generic upsert keyed by a projection `f`: replace the first element with
the same key, else append.  This is the embedding of keyed-map insertion used
by the message want-list, the message block list and the datastore. -/
def upsertBy {α : Type} {β : Type} [DecidableEq β] (f : α → β) : List α → α → List α
  | [], b => [b]
  | c :: cs, b => if f c = f b then b :: cs else c :: upsertBy f cs b

/-! ## Multihash (vendored go-multihash dependency)

Modelled from the spec: `AllKeysChan` must "silently skip any enumerated key
that does not decode as a valid content-hash".  The vendored
`go-multihash` decoder is not part of the source snapshot; `mhDecode` /
`mhCast` reproduce its documented byte layout: `buf[0]` the algorithm code,
`buf[1]` the digest length, the rest the digest; total length within
`[3, 129]`; the code must be an application code (`< 0x10`) or a registered
hash code. -/

/-- Decode a multihash buffer into `(code, length, digest)`. -/
def mhDecode (buf : Bytes) : Option (Nat × Nat × Bytes) :=
  if buf.length < 3 then none
  else if 129 < buf.length then none
  else
    match buf with
    | c :: l :: digest => if digest.length = l then some (c, l, digest) else none
    | _ => none

/-- Registered or application multihash codes (sha1, sha2-256, sha2-512,
sha3, blake2b, blake2s, plus the application range `0 ≤ c < 0x10`). -/
def validCode (c : Nat) : Bool :=
  c < 16 || (c = 17 || c = 18 || c = 19 || c = 20 || c = 64 || c = 65)

/-- Check that a buffer is a well-formed multihash; returns the buffer
itself on success (as `mh.Cast` does). -/
def mhCast (buf : Bytes) : Option Bytes :=
  match mhDecode buf with
  | none => none
  | some (c, _, _) => if validCode c then some buf else none

/-! ## Blocks

Modelled from the spec: the `blocks` package is absent from the snapshot.
Per the data model, a Block is "an immutable byte payload plus its Key" with
the invariant `Key == hash(Block.Data)`; `NewBlock` derives the key by
hashing.  The concrete hash (SHA-256 multihash) is kept abstract as an
explicit function argument `hash`. -/

structure Block where
  multihash : Bytes
  data : Bytes
deriving DecidableEq, Repr

/-- Construct a block from its payload, deriving the key with `hash`. -/
def NewBlock (hash : Bytes → Bytes) (d : Bytes) : Block :=
  ⟨hash d, d⟩

/-! ## Blockstore (`blocks/blockstore/blockstore.go`)

The underlying datastore (vendored go-datastore) is embedded as an
association list of entries plus an injected fault function for `Has`:
on a fault, `Has` returns `(false, err)`; otherwise it reports membership
with a nil error, which is the documented contract of the vendored
implementations.  The `u.Key → ds.Key` conversion (namespacing plus base58,
both vendored) is an injective renaming, so store keys are raw key bytes. -/

structure DatastoreState where
  entries : List (Bytes × Bytes)
  hasFault : Bytes → Option String

/-- Embedding of `datastore.Has`: `(exists, err)`. -/
def dsHas (s : DatastoreState) (k : Bytes) : Bool × Option String :=
  match s.hasFault k with
  | some e => (false, some e)
  | none => ((s.entries.map Prod.fst).contains k, none)

/-- Embedding of `datastore.Put`: store `v` under `k` (overwrite). -/
def dsPut (s : DatastoreState) (k : Bytes) (v : Bytes) : DatastoreState :=
  { s with entries := upsertBy Prod.fst s.entries (k, v) }

/-- Result of `blockstore.Put`: the returned error, the datastore state
after the call, and whether the underlying `datastore.Put` was invoked. -/
structure PutResult where
  err : Option String
  store : DatastoreState
  wrote : Bool

/-- Embedding of `(*blockstore).Put` from `blockstore.go`:

    exists, err := bs.datastore.Has(k)
    if err != nil && exists {
        return nil // already stored.
    }
    return bs.datastore.Put(k, block.Data)
-/
def Put (s : DatastoreState) (b : Block) : PutResult :=
  let k := b.multihash
  let r := dsHas s k
  if r.2.isSome && r.1 then ⟨none, s, false⟩
  else ⟨none, dsPut s k b.data, true⟩

/-! ## AllKeysChan (`blocks/blockstore/blockstore.go`)

The query result stream is embedded as the list of results it will yield;
each result carries a key string and an optional error, as `dsq.Result`
does.  `u.KeyFromDsKey` (vendored base58 decoding) is kept abstract as
`conv`.  The context-cancellation branches select among concurrent events
and are outside the pure embedding; the embedded loop is the run in which
the consumer drains the channel to completion. -/

structure QEntry where
  key : String
  err : Option String

/-- Embedding of the inner `get` closure of `AllKeysChan`: returns the
converted key and an `ok` flag; a result error stops the stream, an invalid
multihash yields the empty key with `ok = true`. -/
def akGet (conv : String → Bytes) (e : QEntry) : Bytes × Bool :=
  match e.err with
  | some _ => ([], false)
  | none =>
    let k := conv e.key
    match mhCast k with
    | none => ([], true)
    | some _ => (k, true)

/-- Embedding of the producer loop of `AllKeysChan`: repeatedly calls `get`,
stops when `ok` is false, skips empty keys, and emits the rest in order. -/
def akLoop (conv : String → Bytes) : List QEntry → List Bytes
  | [] => []
  | e :: rest =>
    match akGet conv e with
    | (_, false) => []
    | (k, true) => if k = [] then akLoop conv rest else k :: akLoop conv rest

/-- The enumerated keys up to the first stream error, converted, keeping
only those that decode as a valid multihash. -/
def goodKeys (conv : String → Bytes) (entries : List QEntry) : List Bytes :=
  ((entries.takeWhile (fun e => e.err.isNone)).map (fun e => conv e.key)).filter
    (fun k => (mhCast k).isSome)

/-! ## Bitswap exchange message

Modelled from the spec: the implementation file of the bitswap `message`
package is absent from the snapshot (only its test file is present), so the
message operations are modelled from §4.4 of the spec:

* `New` — the empty message;
* `AddEntry(key, priority)` — "upsert into the want-list; an existing Key is
  overwritten with the new priority, never duplicated";
* `AddBlock(block)` — keyed by the block's Key, never duplicated (per the
  testable property "AddBlock(b) twice leaves exactly one block with b's
  key" and the in-repo test `TestDuplicates`);
* `ToProto` — an independent structured snapshot (a value copy);
* `ToNet` / `FromNet` — length-prefixed protobuf framing; the protobuf
  codec itself is an external library treated as an exact inverse pair, so
  the wire frame is represented by the structured proto value; on receipt
  each block payload is rebuilt with `NewBlock`, re-deriving its key by
  hashing, since the wire does not carry block keys. -/

/-- Want-list entry: `(Key, Priority, Cancel)`. -/
structure Entry where
  key : Bytes
  priority : Int
  cancel : Bool
deriving DecidableEq, Repr

/-- In-memory bitswap message state: want-list plus block list. -/
structure BitSwapMessage where
  wantlist : List Entry
  blocks : List Block
deriving DecidableEq, Repr

/-- Modelled from the spec: the empty message returned by `New()`. -/
def New : BitSwapMessage :=
  ⟨[], []⟩

/-- Modelled from the spec: want-list upsert with an explicit cancel flag
(the common private helper behind `AddEntry` and `Cancel`). -/
def addEntryFull (m : BitSwapMessage) (k : Bytes) (p : Int) (c : Bool) : BitSwapMessage :=
  { m with wantlist := upsertBy Entry.key m.wantlist ⟨k, p, c⟩ }

/-- Modelled from the spec: `AddEntry(key, priority)` upserts a non-cancel
entry. -/
def AddEntry (m : BitSwapMessage) (k : Bytes) (p : Int) : BitSwapMessage :=
  addEntryFull m k p false

/-- Modelled from the spec: `AddBlock(block)` inserts keyed by the block's
Key, never duplicating a Key. -/
def AddBlock (m : BitSwapMessage) (b : Block) : BitSwapMessage :=
  { m with blocks := upsertBy Block.multihash m.blocks b }

/-- Accessor `Wantlist()`. -/
def Wantlist (m : BitSwapMessage) : List Entry :=
  m.wantlist

/-- Accessor `Blocks()`. -/
def Blocks (m : BitSwapMessage) : List Block :=
  m.blocks

/-- Proto want-list entry: `{ block: key bytes, priority, cancel }`. -/
structure PBEntry where
  block : Bytes
  priority : Int
  cancel : Bool
deriving DecidableEq, Repr

/-- Structured proto message: want-list entries plus raw block payloads
(the wire does not carry block keys). -/
structure PBMessage where
  wantlist : List PBEntry
  blocks : List Bytes
deriving DecidableEq, Repr

/-- Modelled from the spec: `ToProto()` produces an independent structured
snapshot of the current state. -/
def ToProto (m : BitSwapMessage) : PBMessage :=
  ⟨m.wantlist.map (fun e => ⟨e.key, e.priority, e.cancel⟩), m.blocks.map Block.data⟩

/-- Modelled from the spec: `newMessageFromProto`, the inverse constructor,
folds the structured entries and payloads back through the message
constructors; block keys are re-derived by hashing the payload. -/
def newMessageFromProto (hash : Bytes → Bytes) (pb : PBMessage) : BitSwapMessage :=
  let m1 := pb.wantlist.foldl (fun m e => addEntryFull m e.block e.priority e.cancel) New
  pb.blocks.foldl (fun m d => AddBlock m (NewBlock hash d)) m1

/-- Modelled from the spec: `ToNet` emits the length-prefixed serialized
proto snapshot; the byte codec is external and exactly invertible, so the
frame is represented by the structured value. -/
def ToNet (m : BitSwapMessage) : PBMessage :=
  ToProto m

/-- Modelled from the spec: `FromNet` decodes a frame and rebuilds the
message with `newMessageFromProto`. -/
def FromNet (hash : Bytes → Bytes) (w : PBMessage) : BitSwapMessage :=
  newMessageFromProto hash w

/-- Embedding of the test helper `wantlistContains` from the message test
file: does a proto want-list contain an entry for key `x`. -/
def wantlistContains (w : List PBEntry) (x : Bytes) : Bool :=
  w.any (fun e => e.block == x)

/-- A constructor call on a message: `AddEntry(k, p)` or `AddBlock` of the
block built from payload `d` (blocks are only ever created by hashing their
payload, per the data-model invariant `Key == hash(Data)`). -/
inductive MsgOp where
  | addEntry (k : Bytes) (p : Int)
  | addBlock (d : Bytes)
deriving DecidableEq, Repr

/-- Apply one constructor call to a message. -/
def applyOp (hash : Bytes → Bytes) (m : BitSwapMessage) : MsgOp → BitSwapMessage
  | .addEntry k p => AddEntry m k p
  | .addBlock d => AddBlock m (NewBlock hash d)

/-- A message built from `New()` by a finite sequence of constructor
calls. -/
def buildMsg (hash : Bytes → Bytes) (ops : List MsgOp) : BitSwapMessage :=
  ops.foldl (applyOp hash) New

/-- Well-formedness invariant of messages reachable through the
constructors: want-list keys and block keys are duplicate-free, and every
block's key is the hash of its payload. -/
def msgWf (hash : Bytes → Bytes) (m : BitSwapMessage) : Prop :=
  (m.wantlist.map Entry.key).Nodup ∧ (m.blocks.map Block.multihash).Nodup ∧
    ∀ b ∈ m.blocks, b.multihash = hash b.data

/-! ## FSRepo open (`repo/fsrepo`)

The filesystem and the outcomes of the vendored collaborators
(`lockfile.Lock`, the version-marker reader, `dir.Writable`,
`serialize.Load`, the two datastore constructors) are embedded as an
environment record.  Path handling (`path.Clean`, tilde expansion) is the
identity on the already-clean absolute paths considered here.  `Open` is
modelled as the underlying `open` (the `onlyOne` in-process memoization
wrapper, whose implementation is absent from the snapshot, only affects
repeated opens of an already-open path). -/

/-- Version number that the code expects to see (`var RepoVersion = "2"`). -/
def RepoVersion : String := "2"

/-- Outcome of reading the version marker file. -/
inductive VersionRead where
  | notExist
  | readErr (s : String)
  | found (v : String)
deriving DecidableEq, Repr

/-- Errors surfaced by `open`. -/
inductive RepoErr where
  | noRepo
  | oldRepo
  | lockFailed
  | noVersion
  | versionMismatch (found expected : String)
  | notWritable
  | configLoadFailed
  | leveldbOpenFailed
  | flatfsOpenFailed
  | versionReadFailed (s : String)
deriving DecidableEq, Repr

/-- Environment: the existing filesystem paths and the outcome each
fallible collaborator would produce for the repo path being opened. -/
structure Env where
  files : List String
  lockOk : Bool
  version : VersionRead
  pathWritable : Bool
  configOk : Bool
  leveldbOk : Bool
  flatfsOk : Bool

/-- Observable outcome of an `open` call: its result, whether the file lock
was ever acquired, whether it is still held at return, and whether the
config-load and datastore-open steps were reached. -/
structure OpenOutcome where
  result : Except RepoErr Unit
  lockAcquired : Bool
  lockHeld : Bool
  configLoaded : Bool
  datastoreOpened : Bool
deriving Repr

/-- Embedding of Go `strings.Replace(s, old, new, 1)` on character lists:
replace the first occurrence of `old`. -/
def replaceFirstAux (old new : List Char) : List Char → List Char
  | [] => []
  | c :: cs =>
    if old.isPrefixOf (c :: cs) then new ++ (c :: cs).drop old.length
    else c :: replaceFirstAux old new cs

/-- Embedding of Go `strings.Replace(s, old, new, 1)` on strings. -/
def stringsReplace1 (s old new : String) : String :=
  String.mk (replaceFirstAux old.data new.data s.data)

/-- Embedding of `config.Filename`: `path.Join(repoPath, "config")`. -/
def configFileName (p : String) : String :=
  p ++ "/config"

/-- Embedding of `configIsInitialized`: the config file exists. -/
def configIsInitialized (env : Env) (p : String) : Bool :=
  env.files.contains (configFileName p)

/-- Embedding of `isInitializedUnsynced`: config file and leveldb
(`datastore`) directory both exist. -/
def isInitializedUnsynced (env : Env) (p : String) : Bool :=
  configIsInitialized env p && env.files.contains (p ++ "/datastore")

/-- Embedding of `checkInitialized`: on an uninitialized path, look for a
repo at the alternate location with `.ipfs` replaced by `.go-ipfs` and
discriminate `ErrOldRepo` from `ErrNoRepo`. -/
def checkInitialized (env : Env) (p : String) : Option RepoErr :=
  if isInitializedUnsynced env p then none
  else
    if isInitializedUnsynced env (stringsReplace1 p ".ipfs" ".go-ipfs") then some RepoErr.oldRepo
    else some RepoErr.noRepo

/-- Embedding of `open` from `fsrepo.go`: check initialization, acquire the
lock, read and compare the version marker, check writability, load config,
open the datastores; the deferred closure releases the lock unless
`keepLocked` was set, which happens only on the success path. -/
def openRepo (env : Env) (p : String) : OpenOutcome :=
  match checkInitialized env p with
  | some e => ⟨Except.error e, false, false, false, false⟩
  | none =>
    if env.lockOk then
      match env.version with
      | VersionRead.notExist => ⟨Except.error RepoErr.noVersion, true, false, false, false⟩
      | VersionRead.readErr s => ⟨Except.error (RepoErr.versionReadFailed s), true, false, false, false⟩
      | VersionRead.found v =>
        if v = RepoVersion then
          if env.pathWritable then
            if env.configOk then
              if env.leveldbOk then
                if env.flatfsOk then ⟨Except.ok (), true, true, true, true⟩
                else ⟨Except.error RepoErr.flatfsOpenFailed, true, false, true, true⟩
              else ⟨Except.error RepoErr.leveldbOpenFailed, true, false, true, true⟩
            else ⟨Except.error RepoErr.configLoadFailed, true, false, true, false⟩
          else ⟨Except.error RepoErr.notWritable, true, false, false, false⟩
        else ⟨Except.error (RepoErr.versionMismatch v RepoVersion), true, false, false, false⟩
    else ⟨Except.error RepoErr.lockFailed, false, false, false, false⟩

/-- Boolean success test on an `open` result. -/
def isOkB : Except RepoErr Unit → Bool
  | Except.ok _ => true
  | Except.error _ => false

/-! ## Config key get/set (`repo/fsrepo` plus `repo/common`)

The persisted config is a generic structured value.  `MapGetKV` /
`MapSetKV` live in `repo/common`, absent from the snapshot — modelled from
the spec ("config is persisted as a generic structured map", addressed by
dotted key paths): split the key on dots, walk nested objects, read or
write the final component, creating missing intermediate objects on write.
`config.FromMap` / `config.ToMap` (also absent) are modelled from the
spec's read-modify-write description as the identity on the generic map. -/

/-- Generic structured config values (the JSON-like map Go unmarshals). -/
inductive JVal where
  | jstr (s : String)
  | jint (n : Int)
  | jbool (b : Bool)
  | jobj (fields : List (String × JVal))

/-- Split a dotted key path, as Go `strings.Split(key, ".")` does. -/
def splitDotAux : List Char → List Char → List String
  | [], acc => [String.mk acc.reverse]
  | c :: cs, acc =>
    if c = '.' then String.mk acc.reverse :: splitDotAux cs []
    else splitDotAux cs (c :: acc)

/-- Split a string on dots (never returns an empty list). -/
def splitDot (s : String) : List String :=
  splitDotAux s.data []

/-- Walk a dotted path through nested objects and read the value. -/
def mapGetParts : List String → JVal → Option JVal
  | [], v => some v
  | part :: rest, JVal.jobj fields =>
    match List.lookup part fields with
    | some child => mapGetParts rest child
    | none => none
  | _ :: _, _ => none

/-- Modelled from the spec: `common.MapGetKV`. -/
def MapGetKV (v : JVal) (key : String) : Option JVal :=
  mapGetParts (splitDot key) v

/-- Walk a dotted path through nested objects and set the final component,
creating missing intermediate objects; fails if a traversed value is not an
object. -/
def mapSetParts (value : JVal) : List String → JVal → Option JVal
  | [], _ => none
  | [part], JVal.jobj fields => some (JVal.jobj (upsertBy Prod.fst fields (part, value)))
  | part :: p2 :: rest, JVal.jobj fields =>
    let child := match List.lookup part fields with
      | some c => c
      | none => JVal.jobj []
    match mapSetParts value (p2 :: rest) child with
    | some child2 => some (JVal.jobj (upsertBy Prod.fst fields (part, child2)))
    | none => none
  | _ :: _, _ => none

/-- Modelled from the spec: `common.MapSetKV`. -/
def MapSetKV (v : JVal) (key : String) (value : JVal) : Option JVal :=
  mapSetParts value (splitDot key) v

/-- Digit-string value, `none` on empty input or any non-digit. -/
def digitsToNat : List Char → Option Nat
  | [] => none
  | cs =>
    cs.foldl
      (fun acc c =>
        acc.bind fun n => if c.isDigit then some (n * 10 + (c.toNat - 48)) else none)
      (some 0)

/-- Embedding of Go `strconv.Atoi` (decimal, optional sign, 64-bit range
check; out-of-range input is an error). -/
def atoi (s : String) : Option Int :=
  match s.data with
  | [] => none
  | c :: rest =>
    if c = '-' then
      (digitsToNat rest).bind fun n =>
        if (n : Int) ≤ 2 ^ 63 then some (-(n : Int)) else none
    else if c = '+' then
      (digitsToNat rest).bind fun n =>
        if (n : Int) ≤ 2 ^ 63 - 1 then some (n : Int) else none
    else
      (digitsToNat (c :: rest)).bind fun n =>
        if (n : Int) ≤ 2 ^ 63 - 1 then some (n : Int) else none

/-- Embedding of the value coercion in `SetConfigKey`: a string value that
parses as a decimal integer is replaced by the integer. -/
def coerceValue : JVal → JVal
  | JVal.jstr s =>
    match atoi s with
    | some i => JVal.jint i
    | none => JVal.jstr s
  | v => v

/-- Embedding of the overlay loop in `setConfigUnsynced`: write every
top-level field of `m` into `base` (`for k, v := range m { mapconf[k] = v }`). -/
def overlayTop (base m : JVal) : JVal :=
  match base, m with
  | JVal.jobj bf, JVal.jobj mf =>
    JVal.jobj (mf.foldl (fun acc kv => upsertBy Prod.fst acc kv) bf)
  | b, _ => b

/-- Embedding of `(*FSRepo).SetConfigKey` acting on the persisted config
file contents: fail if closed, coerce integer-looking strings, `MapSetKV`
into the raw persisted map, write it back, then run `setConfigUnsynced`,
which re-reads the file and overlays the struct round-trip of the updated
config (`ToMap ∘ FromMap`, modelled as the identity) over it top-level key
by top-level key before writing again.  Returns the final file contents. -/
def SetConfigKey (closed : Bool) (file : JVal) (key : String) (value : JVal) : Option JVal :=
  if closed then none
  else
    match MapSetKV file key (coerceValue value) with
    | none => none
    | some mapconf => some (overlayTop mapconf mapconf)

/-- Embedding of `(*FSRepo).GetConfigKey`: fail if closed, read the
persisted file, `MapGetKV` the dotted key. -/
def GetConfigKey (closed : Bool) (file : JVal) (key : String) : Option JVal :=
  if closed then none
  else MapGetKV file key

/-! ## Generic lemmas about keyed upsert -/

theorem upsertBy_fresh {α β : Type} [DecidableEq β] (f : α → β) (l : List α) (b : α)
    (h : f b ∉ l.map f) : upsertBy f l b = l ++ [b] := by
  induction l with
  | nil => rfl
  | cons c cs ih =>
    simp only [List.map_cons, List.mem_cons, not_or] at h
    have hfc : ¬(f c = f b) := fun hfc => h.1 hfc.symm
    simp only [upsertBy, if_neg hfc, List.cons_append, List.cons.injEq, true_and]
    exact ih h.2

theorem mem_upsertBy {α β : Type} [DecidableEq β] (f : α → β) (l : List α) (b a : α)
    (h : a ∈ upsertBy f l b) : a = b ∨ a ∈ l := by
  induction l with
  | nil =>
    simp only [upsertBy, List.mem_singleton] at h
    exact Or.inl h
  | cons c cs ih =>
    simp only [upsertBy] at h
    split at h
    · rcases List.mem_cons.mp h with h1 | h1
      · exact Or.inl h1
      · exact Or.inr (List.mem_cons_of_mem _ h1)
    · rcases List.mem_cons.mp h with h1 | h1
      · exact Or.inr (h1 ▸ List.mem_cons_self _ _)
      · rcases ih h1 with h2 | h2
        · exact Or.inl h2
        · exact Or.inr (List.mem_cons_of_mem _ h2)

theorem map_upsertBy_subset {α β : Type} [DecidableEq β] (f : α → β) (l : List α) (b : α)
    (x : β) (h : x ∈ (upsertBy f l b).map f) : x ∈ l.map f ∨ x = f b := by
  rcases List.mem_map.mp h with ⟨a, ha, rfl⟩
  rcases mem_upsertBy f l b a ha with h1 | h1
  · exact Or.inr (by rw [h1])
  · exact Or.inl (List.mem_map_of_mem f h1)

theorem nodup_upsertBy {α β : Type} [DecidableEq β] (f : α → β) (l : List α) (b : α)
    (h : (l.map f).Nodup) : ((upsertBy f l b).map f).Nodup := by
  induction l with
  | nil => simp [upsertBy]
  | cons c cs ih =>
    simp only [List.map_cons, List.nodup_cons] at h
    by_cases hfc : f c = f b
    · simp only [upsertBy, if_pos hfc, List.map_cons, List.nodup_cons]
      exact ⟨by rw [← hfc]; exact h.1, h.2⟩
    · simp only [upsertBy, if_neg hfc, List.map_cons, List.nodup_cons]
      refine ⟨fun hx => ?_, ih h.2⟩
      rcases map_upsertBy_subset f cs b (f c) hx with h1 | h1
      · exact h.1 h1
      · exact hfc h1

theorem filter_upsertBy {α β : Type} [DecidableEq β] (f : α → β) (l : List α) (b : α)
    (h : (l.map f).Nodup) :
    (upsertBy f l b).filter (fun a => decide (f a = f b)) = [b] := by
  induction l with
  | nil => simp [upsertBy]
  | cons c cs ih =>
    simp only [List.map_cons, List.nodup_cons] at h
    by_cases hfc : f c = f b
    · have hnone : ∀ a ∈ cs, ¬(f a = f b) := by
        intro a ha hab
        exact h.1 (hfc ▸ hab ▸ List.mem_map_of_mem f ha)
      have hnil : List.filter (fun a => decide (f a = f b)) cs = [] :=
        List.filter_eq_nil_iff.mpr (fun a ha => by simp [hnone a ha])
      simp [upsertBy, if_pos hfc, List.filter_cons, hnil]
    · simp only [upsertBy, if_neg hfc, List.filter_cons, decide_eq_true_eq, if_neg hfc]
      exact ih h.2

theorem lookupA_upsertBy {κ ω : Type} [DecidableEq κ] (fs : List (κ × ω)) (k : κ) (v : ω) :
    List.lookup k (upsertBy Prod.fst fs (k, v)) = some v := by
  induction fs with
  | nil => simp [upsertBy, List.lookup]
  | cons c cs ih =>
    by_cases hfc : c.1 = k
    · simp only [upsertBy, if_pos hfc, List.lookup, beq_self_eq_true]
    · simp only [upsertBy, if_neg hfc, List.lookup]
      have hkc : (k == c.1) = false := by
        simp only [beq_eq_false_iff_ne, ne_eq]
        exact fun hk => hfc hk.symm
      rw [hkc]
      exact ih

theorem upsertBy_lookup_self {κ ω : Type} [DecidableEq κ] (fs : List (κ × ω)) (k : κ) (v : ω)
    (h : List.lookup k fs = some v) : upsertBy Prod.fst fs (k, v) = fs := by
  induction fs with
  | nil => simp [List.lookup] at h
  | cons c cs ih =>
    by_cases hk : k = c.1
    · have hb : (k == c.1) = true := beq_iff_eq.mpr hk
      simp only [List.lookup, hb, Option.some.injEq] at h
      simp only [upsertBy, if_pos hk.symm]
      obtain ⟨c1, c2⟩ := c
      simp only at hk h
      rw [hk, h]
    · have hb : (k == c.1) = false := by
        simp only [beq_eq_false_iff_ne, ne_eq]
        exact hk
      simp only [List.lookup, hb] at h
      have hfc : ¬(c.1 = k) := fun hc => hk hc.symm
      simp only [upsertBy, if_neg hfc]
      rw [ih h]

/-! ## Message lemmas -/

theorem foldl_addEntryFull (es : List Entry) :
    ∀ m : BitSwapMessage, (es.map Entry.key).Nodup →
      (∀ e ∈ es, e.key ∉ m.wantlist.map Entry.key) →
      ((es.map (fun e => PBEntry.mk e.key e.priority e.cancel)).foldl
          (fun m pe => addEntryFull m pe.block pe.priority pe.cancel) m)
        = { m with wantlist := m.wantlist ++ es } := by
  induction es with
  | nil => intro m _ _; simp
  | cons e rest ih =>
    intro m hnd hfresh
    simp only [List.map_cons, List.nodup_cons] at hnd
    have hek : e.key ∉ m.wantlist.map Entry.key := hfresh e (List.mem_cons_self _ _)
    have hstep : addEntryFull m e.key e.priority e.cancel
        = { m with wantlist := m.wantlist ++ [e] } := by
      simp only [addEntryFull]
      rw [upsertBy_fresh Entry.key m.wantlist ⟨e.key, e.priority, e.cancel⟩ hek]
    simp only [List.map_cons, List.foldl_cons]
    rw [hstep, ih { m with wantlist := m.wantlist ++ [e] } hnd.2 ?_]
    · simp
    · intro e' he'
      simp only [List.map_append, List.mem_append, List.map_cons, List.map_nil,
        List.mem_singleton, not_or]
      refine ⟨hfresh e' (List.mem_cons_of_mem _ he'), fun hkey => ?_⟩
      exact hnd.1 (hkey ▸ List.mem_map_of_mem Entry.key he')

theorem foldl_addBlock (hash : Bytes → Bytes) (bs : List Block) :
    ∀ m : BitSwapMessage, (bs.map Block.multihash).Nodup →
      (∀ b ∈ bs, b.multihash = hash b.data) →
      (∀ b ∈ bs, b.multihash ∉ m.blocks.map Block.multihash) →
      ((bs.map Block.data).foldl (fun m d => AddBlock m (NewBlock hash d)) m)
        = { m with blocks := m.blocks ++ bs } := by
  induction bs with
  | nil => intro m _ _ _; simp
  | cons b rest ih =>
    intro m hnd hwf hfresh
    simp only [List.map_cons, List.nodup_cons] at hnd
    have hb : NewBlock hash b.data = b := by
      simp only [NewBlock]
      rw [← hwf b (List.mem_cons_self _ _)]
    have hbk : b.multihash ∉ m.blocks.map Block.multihash :=
      hfresh b (List.mem_cons_self _ _)
    have hstep : AddBlock m (NewBlock hash b.data) = { m with blocks := m.blocks ++ [b] } := by
      rw [hb]
      simp only [AddBlock]
      rw [upsertBy_fresh Block.multihash m.blocks b hbk]
    simp only [List.map_cons, List.foldl_cons]
    rw [hstep, ih { m with blocks := m.blocks ++ [b] } hnd.2
      (fun b' hb' => hwf b' (List.mem_cons_of_mem _ hb')) ?_]
    · simp
    · intro b' hb'
      simp only [List.map_append, List.mem_append, List.map_cons, List.map_nil,
        List.mem_singleton, not_or]
      refine ⟨hfresh b' (List.mem_cons_of_mem _ hb'), fun hkey => ?_⟩
      exact hnd.1 (hkey ▸ List.mem_map_of_mem Block.multihash hb')

theorem roundtrip_eq (hash : Bytes → Bytes) (m : BitSwapMessage) (h : msgWf hash m) :
    FromNet hash (ToNet m) = m := by
  obtain ⟨hw, hb, hwf⟩ := h
  simp only [FromNet, ToNet, newMessageFromProto, ToProto]
  rw [foldl_addEntryFull m.wantlist New hw (by intro e _; simp [New])]
  rw [foldl_addBlock hash m.blocks _ hb hwf (by intro b _; simp [New])]
  simp [New]

theorem msgWf_applyOp (hash : Bytes → Bytes) (m : BitSwapMessage) (op : MsgOp)
    (h : msgWf hash m) : msgWf hash (applyOp hash m op) := by
  obtain ⟨hw, hb, hwf⟩ := h
  cases op with
  | addEntry k p =>
    exact ⟨nodup_upsertBy Entry.key m.wantlist _ hw, hb, hwf⟩
  | addBlock d =>
    refine ⟨hw, nodup_upsertBy Block.multihash m.blocks _ hb, ?_⟩
    intro b hbmem
    rcases mem_upsertBy Block.multihash m.blocks _ b hbmem with h1 | h1
    · rw [h1]; rfl
    · exact hwf b h1

theorem msgWf_buildMsg (hash : Bytes → Bytes) (ops : List MsgOp) :
    msgWf hash (buildMsg hash ops) := by
  have main : ∀ (l : List MsgOp) (m : BitSwapMessage), msgWf hash m →
      msgWf hash (l.foldl (applyOp hash) m) := by
    intro l
    induction l with
    | nil => intro m hm; exact hm
    | cons op rest ih =>
      intro m hm
      exact ih _ (msgWf_applyOp hash m op hm)
  exact main ops New ⟨List.nodup_nil, List.nodup_nil, by intro b hb; simp [New] at hb⟩

/-! ## Config map lemmas -/

theorem splitDotAux_ne_nil (cs : List Char) : ∀ acc, splitDotAux cs acc ≠ [] := by
  induction cs with
  | nil => intro acc; simp [splitDotAux]
  | cons c cs ih =>
    intro acc
    by_cases hc : c = '.'
    · simp [splitDotAux, if_pos hc]
    · simp only [splitDotAux, if_neg hc]
      exact ih _

theorem splitDot_ne_nil (s : String) : splitDot s ≠ [] :=
  splitDotAux_ne_nil s.data []

theorem mapGetParts_mapSetParts (value : JVal) :
    ∀ (parts : List String) (v out : JVal), mapSetParts value parts v = some out →
      mapGetParts parts out = some value := by
  intro parts
  induction parts with
  | nil => intro v out h; simp [mapSetParts] at h
  | cons part rest ih =>
    intro v out h
    cases rest with
    | nil =>
      cases v with
      | jobj fields =>
        simp only [mapSetParts, Option.some.injEq] at h
        subst h
        simp only [mapGetParts, lookupA_upsertBy]
      | jstr s => simp [mapSetParts] at h
      | jint n => simp [mapSetParts] at h
      | jbool b => simp [mapSetParts] at h
    | cons p2 rest2 =>
      cases v with
      | jobj fields =>
        simp only [mapSetParts] at h
        cases hm : mapSetParts value (p2 :: rest2)
            (match List.lookup part fields with
             | some c => c
             | none => JVal.jobj []) with
        | none => rw [hm] at h; simp at h
        | some child2 =>
          rw [hm] at h
          simp only [Option.some.injEq] at h
          subst h
          simp only [mapGetParts, lookupA_upsertBy]
          exact ih _ _ hm
      | jstr s => simp [mapSetParts] at h
      | jint n => simp [mapSetParts] at h
      | jbool b => simp [mapSetParts] at h

theorem mapSetParts_top_shape (value : JVal) (parts : List String)
    (fields : List (String × JVal)) (out : JVal)
    (h : mapSetParts value parts (JVal.jobj fields) = some out) :
    ∃ part child, out = JVal.jobj (upsertBy Prod.fst fields (part, child)) := by
  cases parts with
  | nil => simp [mapSetParts] at h
  | cons part rest =>
    cases rest with
    | nil =>
      simp only [mapSetParts, Option.some.injEq] at h
      exact ⟨part, value, h.symm⟩
    | cons p2 rest2 =>
      simp only [mapSetParts] at h
      cases hm : mapSetParts value (p2 :: rest2)
          (match List.lookup part fields with
           | some c => c
           | none => JVal.jobj []) with
      | none => rw [hm] at h; simp at h
      | some child2 =>
        rw [hm] at h
        simp only [Option.some.injEq] at h
        exact ⟨part, child2, h.symm⟩

theorem nodup_assoc_lookup {κ ω : Type} [DecidableEq κ] (fs : List (κ × ω))
    (h : (fs.map Prod.fst).Nodup) :
    ∀ kv ∈ fs, List.lookup kv.1 fs = some kv.2 := by
  induction fs with
  | nil => intro kv hkv; simp at hkv
  | cons c cs ih =>
    simp only [List.map_cons, List.nodup_cons] at h
    intro kv hkv
    rcases List.mem_cons.mp hkv with h1 | h1
    · subst h1
      simp [List.lookup]
    · have hne : (kv.1 == c.1) = false := by
        simp only [beq_eq_false_iff_ne, ne_eq]
        intro hk
        exact h.1 (hk ▸ List.mem_map_of_mem Prod.fst h1)
      simp only [List.lookup, hne]
      exact ih h.2 kv h1

theorem foldl_upsert_self {κ ω : Type} [DecidableEq κ] (base : List (κ × ω)) :
    ∀ m : List (κ × ω), (∀ kv ∈ m, List.lookup kv.1 base = some kv.2) →
      m.foldl (fun acc kv => upsertBy Prod.fst acc kv) base = base := by
  intro m
  induction m with
  | nil => intro _; rfl
  | cons kv rest ih =>
    intro h
    simp only [List.foldl_cons]
    have hkv : upsertBy Prod.fst base kv = base := by
      obtain ⟨k, v⟩ := kv
      exact upsertBy_lookup_self base k v (h (k, v) (List.mem_cons_self _ _))
    rw [hkv]
    exact ih (fun kv' hkv' => h kv' (List.mem_cons_of_mem _ hkv'))

theorem overlayTop_self (fs : List (String × JVal)) (h : (fs.map Prod.fst).Nodup) :
    overlayTop (JVal.jobj fs) (JVal.jobj fs) = JVal.jobj fs := by
  simp only [overlayTop]
  rw [foldl_upsert_self fs fs (nodup_assoc_lookup fs h)]

/-! ## Multihash lemmas -/

theorem mhCast_isSome_ne_nil (k : Bytes) (h : (mhCast k).isSome = true) : k ≠ [] := by
  intro hn
  subst hn
  simp [mhCast, mhDecode] at h

theorem akLoop_eq_goodKeys (conv : String → Bytes) (entries : List QEntry) :
    akLoop conv entries = goodKeys conv entries := by
  induction entries with
  | nil => rfl
  | cons e rest ih =>
    cases he : e.err with
    | some s =>
      simp [akLoop, akGet, he, goodKeys]
    | none =>
      cases hc : mhCast (conv e.key) with
      | none =>
        simp only [akLoop, akGet, he, hc, if_pos rfl]
        rw [ih]
        simp [goodKeys, he, hc]
      | some w =>
        have hne : conv e.key ≠ [] :=
          mhCast_isSome_ne_nil (conv e.key) (by rw [hc]; rfl)
        simp only [akLoop, akGet, he, hc, if_neg hne]
        rw [ih]
        simp [goodKeys, he, hc]

/-! ## Claim theorems -/

/-- C1 (code bug evidence): with a block already present in the datastore
and `Has` succeeding — `Has` returns `(true, nil)` — `blockstore.Put`
nevertheless invokes the underlying `datastore.Put` again, because the
skip guard is written `err != nil && exists`, which cannot hold after a
successful `Has`; the claimed "succeeds without re-writing" path never
runs. -/
theorem put_rewrites_existing_block :
    dsHas ⟨[([18, 1, 5], [102])], fun _ => none⟩ [18, 1, 5] = (true, none) ∧
      (Put ⟨[([18, 1, 5], [102])], fun _ => none⟩ ⟨[18, 1, 5], [102]⟩).wrote = true :=
  ⟨rfl, rfl⟩

/-- C2: for every message built from `New()` by `AddEntry`/`AddBlock`
calls, `FromNet(ToNet(m))` succeeds and its `Wantlist()` and `Blocks()`
agree with `m`'s key-for-key (the key lists are preserved exactly, hence
set-equal by Key ignoring order). -/
theorem toNet_fromNet_preserves (hash : Bytes → Bytes) (ops : List MsgOp) :
    (Wantlist (FromNet hash (ToNet (buildMsg hash ops)))).map Entry.key
        = (Wantlist (buildMsg hash ops)).map Entry.key ∧
      (Blocks (FromNet hash (ToNet (buildMsg hash ops)))).map Block.multihash
        = (Blocks (buildMsg hash ops)).map Block.multihash := by
  rw [roundtrip_eq hash _ (msgWf_buildMsg hash ops)]
  exact ⟨rfl, rfl⟩

/-- C3: a `ToProto()` snapshot taken before a later `AddEntry(k, p)` call
does not contain an entry for `k` (for `k` not already wanted), while the
snapshot taken after the call does — the snapshot is a value copy that
later mutations do not reach. -/
theorem toProto_snapshot (m : BitSwapMessage) (k : Bytes) (p : Int)
    (h : k ∉ m.wantlist.map Entry.key) :
    wantlistContains (ToProto m).wantlist k = false ∧
      wantlistContains (ToProto (AddEntry m k p)).wantlist k = true := by
  constructor
  · rw [Bool.eq_false_iff]
    intro hcontra
    simp only [wantlistContains, ToProto, List.any_eq_true] at hcontra
    rcases hcontra with ⟨pe, hpe, hbeq⟩
    rcases List.mem_map.mp hpe with ⟨e, he, rfl⟩
    simp only [beq_iff_eq] at hbeq
    exact h (hbeq ▸ List.mem_map_of_mem Entry.key he)
  · have hfresh : (AddEntry m k p).wantlist = m.wantlist ++ [⟨k, p, false⟩] := by
      simp only [AddEntry, addEntryFull]
      exact upsertBy_fresh Entry.key m.wantlist ⟨k, p, false⟩ h
    simp only [wantlistContains, ToProto, hfresh, List.map_append, List.any_append]
    simp

/-- C6: `AddEntry(k, p1)` then `AddEntry(k, p2)` on any constructed message
leaves exactly one want-list entry for `k`, and its priority is `p2`. -/
theorem addEntry_upsert (hash : Bytes → Bytes) (ops : List MsgOp) (k : Bytes) (p1 p2 : Int) :
    (Wantlist (AddEntry (AddEntry (buildMsg hash ops) k p1) k p2)).filter
        (fun e => decide (e.key = k)) = [⟨k, p2, false⟩] := by
  have hw : ((buildMsg hash ops).wantlist.map Entry.key).Nodup := (msgWf_buildMsg hash ops).1
  have h1 : ((AddEntry (buildMsg hash ops) k p1).wantlist.map Entry.key).Nodup :=
    nodup_upsertBy Entry.key _ _ hw
  have hfil := filter_upsertBy Entry.key
    ((AddEntry (buildMsg hash ops) k p1).wantlist) ⟨k, p2, false⟩ h1
  simpa [Wantlist, AddEntry, addEntryFull] using hfil

/-- C7: `AddBlock(b)` twice on any constructed message leaves exactly one
block with `b`'s key. -/
theorem addBlock_dedup (hash : Bytes → Bytes) (ops : List MsgOp) (b : Block) :
    (Blocks (AddBlock (AddBlock (buildMsg hash ops) b) b)).filter
        (fun c => decide (c.multihash = b.multihash)) = [b] := by
  have hb : ((buildMsg hash ops).blocks.map Block.multihash).Nodup :=
    (msgWf_buildMsg hash ops).2.1
  have h1 : ((AddBlock (buildMsg hash ops) b).blocks.map Block.multihash).Nodup :=
    nodup_upsertBy Block.multihash _ _ hb
  have hfil := filter_upsertBy Block.multihash
    ((AddBlock (buildMsg hash ops) b).blocks) b h1
  simpa [Blocks, AddBlock] using hfil

/-- C8: the `AllKeysChan` producer loop emits exactly the enumerated keys
(up to the first stream error) that decode as a valid multihash — a key
whose bytes do not decode is silently skipped, not emitted and not
reported as an error, and every emitted key decodes as a valid
multihash. -/
theorem allKeysChan_skips_invalid (conv : String → Bytes) (entries : List QEntry) :
    akLoop conv entries = goodKeys conv entries ∧
      (akLoop conv entries).all (fun k => (mhCast k).isSome) = true := by
  refine ⟨akLoop_eq_goodKeys conv entries, ?_⟩
  rw [akLoop_eq_goodKeys]
  simp only [goodKeys, List.all_eq_true]
  intro k hk
  exact (List.mem_filter.mp hk).2

/-- C4: across every environment, `open` holds the lock at return exactly
when it succeeds — every failure path after the lock was acquired releases
it (via the deferred `keepLocked` closure) before returning, and failures
before acquisition never hold it. -/
theorem open_lock_held_iff_ok (env : Env) (p : String) :
    (openRepo env p).lockHeld = isOkB (openRepo env p).result := by
  obtain ⟨files, lockOk, version, pw, cok, lok, fok⟩ := env
  cases h : checkInitialized ⟨files, lockOk, version, pw, cok, lok, fok⟩ p with
  | some e => simp [openRepo, h, isOkB]
  | none =>
    cases lockOk <;> cases version <;> cases pw <;> cases cok <;> cases lok <;> cases fok <;>
      simp [openRepo, h, isOkB] <;> split <;> simp [isOkB]

/-- C5: when the repository is initialized, the lock is acquired and the
version marker holds `v ≠ RepoVersion`, `open` fails with the
version-mismatch error carrying both the found and the expected version,
releases the lock, and never reaches the config-load or datastore-open
steps. -/
theorem open_version_mismatch (env : Env) (p : String) (v : String)
    (h1 : checkInitialized env p = none) (h2 : env.lockOk = true)
    (h3 : env.version = VersionRead.found v) (h4 : v ≠ RepoVersion) :
    openRepo env p = ⟨Except.error (RepoErr.versionMismatch v RepoVersion),
      true, false, false, false⟩ := by
  simp [openRepo, h1, h2, h3, h4]

/-- C10: on an uninitialized path, `open` fails without ever acquiring the
file lock, and the error is discriminated by the alternate location with
`.ipfs` replaced by `.go-ipfs`: old-repo error when that location is
initialized, no-repo error otherwise. -/
theorem open_uninitialized_discriminates (env : Env) (p : String)
    (h : isInitializedUnsynced env p = false) :
    (openRepo env p).lockAcquired = false ∧
      (openRepo env p).result = Except.error
        (if isInitializedUnsynced env (stringsReplace1 p ".ipfs" ".go-ipfs") then
          RepoErr.oldRepo
        else RepoErr.noRepo) := by
  by_cases halt : isInitializedUnsynced env (stringsReplace1 p ".ipfs" ".go-ipfs") = true
  · have hc : checkInitialized env p = some RepoErr.oldRepo := by
      simp [checkInitialized, h, halt]
    simp [openRepo, hc, halt]
  · have hf : isInitializedUnsynced env (stringsReplace1 p ".ipfs" ".go-ipfs") = false := by
      simpa using halt
    have hc : checkInitialized env p = some RepoErr.noRepo := by
      simp [checkInitialized, h, hf]
    simp [openRepo, hc, hf]

/-- C9: on an open repository, `SetConfigKey` with a string value stores
the decimal integer it parses to (so a later `GetConfigKey` on the same
dotted key yields the integer), and stores the string itself when it does
not parse as an integer. -/
theorem setConfigKey_stores_int (fs : List (String × JVal)) (key v : String) (out : JVal)
    (hn : (fs.map Prod.fst).Nodup)
    (hset : SetConfigKey false (JVal.jobj fs) key (JVal.jstr v) = some out) :
    GetConfigKey false out key
      = some (match atoi v with
              | some i => JVal.jint i
              | none => JVal.jstr v) := by
  unfold SetConfigKey at hset
  rw [if_neg Bool.false_ne_true] at hset
  unfold MapSetKV at hset
  cases hm : mapSetParts (coerceValue (JVal.jstr v)) (splitDot key) (JVal.jobj fs) with
  | none => rw [hm] at hset; simp at hset
  | some mapconf =>
    rw [hm] at hset
    simp only [Option.some.injEq] at hset
    obtain ⟨part, child, hshape⟩ := mapSetParts_top_shape _ _ _ _ hm
    subst hshape
    have hnd2 : ((upsertBy Prod.fst fs (part, child)).map Prod.fst).Nodup :=
      nodup_upsertBy Prod.fst fs _ hn
    rw [overlayTop_self _ hnd2] at hset
    subst hset
    unfold GetConfigKey MapGetKV
    rw [if_neg Bool.false_ne_true]
    rw [mapGetParts_mapSetParts _ (splitDot key) (JVal.jobj fs) _ hm]
    rfl

/-- C3 witness: concrete instance — the snapshot of the empty message does
not contain the key added afterwards, while a fresh snapshot does. -/
theorem toProto_snapshot_witness :
    (([3] : Bytes) ∉ New.wantlist.map Entry.key) ∧
      (wantlistContains (ToProto New).wantlist [3] = false ∧
        wantlistContains (ToProto (AddEntry New [3] 1)).wantlist [3] = true) := by
  have h : ([3] : Bytes) ∉ New.wantlist.map Entry.key := by simp [New]
  exact ⟨h, toProto_snapshot New [3] 1 h⟩

/-- C5 witness: concrete instance — an initialized repo whose version
marker reads "1" makes `open` fail with the version-mismatch error, lock
released, config and datastores untouched. -/
theorem open_version_mismatch_witness :
    checkInitialized
        ⟨["/r/config", "/r/datastore"], true, VersionRead.found "1", true, true, true, true⟩
        "/r" = none ∧
      ("1" : String) ≠ RepoVersion ∧
      openRepo
          ⟨["/r/config", "/r/datastore"], true, VersionRead.found "1", true, true, true, true⟩
          "/r"
        = ⟨Except.error (RepoErr.versionMismatch "1" RepoVersion),
            true, false, false, false⟩ := by
  have h1 : checkInitialized
      (⟨["/r/config", "/r/datastore"], true, VersionRead.found "1", true, true, true, true⟩ :
        Env) "/r" = none := by decide
  have h4 : ("1" : String) ≠ RepoVersion := by decide
  exact ⟨h1, h4, open_version_mismatch _ "/r" "1" h1 rfl rfl h4⟩

/-- C10 witness: concrete instance — opening the uninitialized path
`/h/.ipfs` while `/h/.go-ipfs` is initialized fails before the lock with
the old-repo-location error branch of the discrimination. -/
theorem open_uninitialized_discriminates_witness :
    isInitializedUnsynced
        ⟨["/h/.go-ipfs/config", "/h/.go-ipfs/datastore"], true, VersionRead.found "2",
          true, true, true, true⟩ "/h/.ipfs" = false ∧
      ((openRepo
            ⟨["/h/.go-ipfs/config", "/h/.go-ipfs/datastore"], true, VersionRead.found "2",
              true, true, true, true⟩ "/h/.ipfs").lockAcquired = false ∧
        (openRepo
            ⟨["/h/.go-ipfs/config", "/h/.go-ipfs/datastore"], true, VersionRead.found "2",
              true, true, true, true⟩ "/h/.ipfs").result
          = Except.error
              (if isInitializedUnsynced
                  ⟨["/h/.go-ipfs/config", "/h/.go-ipfs/datastore"], true,
                    VersionRead.found "2", true, true, true, true⟩
                  (stringsReplace1 "/h/.ipfs" ".ipfs" ".go-ipfs") then
                RepoErr.oldRepo
              else RepoErr.noRepo)) := by
  have h : isInitializedUnsynced
      (⟨["/h/.go-ipfs/config", "/h/.go-ipfs/datastore"], true, VersionRead.found "2",
        true, true, true, true⟩ : Env) "/h/.ipfs" = false := by decide
  exact ⟨h, open_uninitialized_discriminates _ "/h/.ipfs" h⟩

/-- C9 witness: concrete instance — setting `Datastore.Path` to the string
"123" stores the integer 123 and `GetConfigKey` reads the integer back. -/
theorem setConfigKey_stores_int_witness :
    (([("Datastore", JVal.jobj [("Path", JVal.jstr "x")])].map Prod.fst).Nodup) ∧
      SetConfigKey false (JVal.jobj [("Datastore", JVal.jobj [("Path", JVal.jstr "x")])])
          "Datastore.Path" (JVal.jstr "123")
        = some (JVal.jobj [("Datastore", JVal.jobj [("Path", JVal.jint 123)])]) ∧
      GetConfigKey false (JVal.jobj [("Datastore", JVal.jobj [("Path", JVal.jint 123)])])
          "Datastore.Path"
        = some (match atoi "123" with
                | some i => JVal.jint i
                | none => JVal.jstr "123") := by
  have hn : (([("Datastore", JVal.jobj [("Path", JVal.jstr "x")])].map Prod.fst).Nodup) := by
    simp
  have hset : SetConfigKey false
      (JVal.jobj [("Datastore", JVal.jobj [("Path", JVal.jstr "x")])])
      "Datastore.Path" (JVal.jstr "123")
      = some (JVal.jobj [("Datastore", JVal.jobj [("Path", JVal.jint 123)])]) := rfl
  exact ⟨hn, hset, setConfigKey_stores_int _ "Datastore.Path" "123" _ hn hset⟩

end GoIpfs
